import Mathlib

/-!
# Verification of the `tinify-pics` per-file pipeline (`src/main.rs`)

Shallow embedding of the program's core logic:

* Rust `String::replace`, `str::contains` and `str::ends_with` are modelled by
  executable functions over `List Char` (`replaceL`, `containsL`, `List.isSuffixOf`).
  `replaceL` replaces all non-overlapping occurrences left to right, exactly as
  Rust's `str::replace` does for the non-empty needles `".png"` / `".jpg"` that are
  the only needles the program ever uses.
* Images are modelled symbolically (`Img`): the constructors mirror the calls the
  program makes into the `image` crate (`open`/`to_rgba8` as a source with known
  dimensions, `DynamicImage::new_rgba8`, `imageops::overlay`, `imageops::resize`).
* The external world (filesystem existence, image decoding, PNG encoding, the
  remote tinify service's `to_file`) is a record of functions `Env`.
* A Rust panic (`expect`) is a distinct outcome `RunResult.panicked`, different
  from a returned `Err` (`RunResult.err`).
* Observable side effects (log lines in the two skip branches, remote submissions
  `tinify::from_file` / `tinify::from_buffer`, and the final write) are recorded
  as a list of `Event`s.
-/

set_option autoImplicit false

namespace TinifyPics

/-! ## Rust string primitives -/

/-- One fuel-indexed step of Rust `str::replace`: scan left to right, and at each
position replace a match of `pat` by `rep` without rescanning `rep`.  The fuel is
always instantiated with the length of the scanned list, which is enough to reach
the end of the scan. -/
def replaceFuel (pat rep : List Char) : Nat → List Char → List Char
  | _, [] => []
  | 0, s => s
  | fuel + 1, c :: rest =>
    if pat.isPrefixOf (c :: rest) then
      rep ++ replaceFuel pat rep fuel (rest.drop (pat.length - 1))
    else
      c :: replaceFuel pat rep fuel rest

/-- Rust `String::replace(pat, rep)` on character lists (for the non-empty
needles used by the program). -/
def replaceL (pat rep s : List Char) : List Char :=
  replaceFuel pat rep s.length s

/-- Rust `str::contains(pat)` on character lists. -/
def containsL : List Char → List Char → Bool
  | [], pat => pat.isEmpty
  | c :: rest, pat => pat.isPrefixOf (c :: rest) || containsL rest pat

/-- Rust `String::replace` on `String`s. -/
def srep (s pat rep : String) : String :=
  String.mk (replaceL pat.toList rep.toList s.toList)

/-- Rust `str::contains` on `String`s. -/
def scontains (s pat : String) : Bool :=
  containsL s.toList pat.toList

/-- Rust `str::ends_with` on `String`s. -/
def sendsWith (s suffix : String) : Bool :=
  suffix.toList.isSuffixOf s.toList

/-! ## Data model -/

/-- The resize filter used by the program (`image::imageops::FilterType::Lanczos3`). -/
inductive FilterType where
  | lanczos3
deriving DecidableEq, Repr

/-- Symbolic image values, mirroring the `image`-crate operations the program
performs in `convert_and_tinify`. -/
inductive Img where
  /-- `image::open(file)?.to_rgba8()`: a decoded source image of known size. -/
  | src (width height : Nat)
  /-- `DynamicImage::new_rgba8(w, h)`: a blank transparent canvas. -/
  | blank (width height : Nat)
  /-- `imageops::overlay(&mut bg, &fg, x, y)`: `fg` composited onto `bg` at `(x, y)`. -/
  | overlaid (bg fg : Img) (x y : Nat)
  /-- `imageops::resize(&img, w, h, filter)` wrapped back into a `DynamicImage`. -/
  | resized (i : Img) (width height : Nat) (filter : FilterType)
deriving DecidableEq, Repr

/-- Dimensions of a symbolic image (overlay keeps the background's dimensions). -/
def Img.dims : Img → Nat × Nat
  | .src w h => (w, h)
  | .blank w h => (w, h)
  | .overlaid bg _ _ _ => bg.dims
  | .resized _ w h _ => (w, h)

/-- A `tinify_rs::tinify::Source`: the handle produced by submitting either a
file path or an in-memory buffer to the remote compressor. -/
inductive Source where
  | fromFile (path : String)
  | fromBuffer (bytes : List Nat)
deriving DecidableEq, Repr

/-- Observable events of one `tinify` call, in program order. -/
inductive Event where
  /-- The `debug!("Image is an already tinified output! …")` line of the
  double-pattern skip branch. -/
  | logAlreadyTinified (file : String)
  /-- The `info!("Tinified Output for '…' already exists! …")` line of the
  output-existence skip branch. -/
  | logOutputExists (file output : String)
  /-- `tinify::from_file(&file)`: the source path submitted to the remote compressor. -/
  | remoteFromFile (path : String)
  /-- `tinify::from_buffer(&bytes)`: an in-memory buffer submitted to the remote compressor. -/
  | remoteFromBuffer (bytes : List Nat)
  /-- `source.to_file(&output)` succeeded: the compressed result was written to `output`. -/
  | wroteFile (output : String)
deriving DecidableEq, Repr

/-- Is the event a remote-compressor submission? -/
def Event.isRemoteCall : Event → Bool
  | .remoteFromFile _ => true
  | .remoteFromBuffer _ => true
  | _ => false

/-- Is the event a buffer (converted-image) submission? -/
def Event.isRemoteBuffer : Event → Bool
  | .remoteFromBuffer _ => true
  | _ => false

/-- Is the event a file write? -/
def Event.isWrite : Event → Bool
  | .wroteFile _ => true
  | _ => false

/-- Result of running a piece of the program: normal return, returned `Err`
(Rust `?` propagation), or a Rust panic (`expect`), which aborts the process and
is *not* returned to the caller. -/
inductive RunResult (α : Type) where
  | ok (a : α)
  | err (e : String)
  | panicked (msg : String)
deriving DecidableEq, Repr

/-- Is the result a returned `Err`? -/
def RunResult.isErr {α : Type} : RunResult α → Bool
  | .err _ => true
  | _ => false

/-- The external world: filesystem existence, image decoding (dimensions of the
decoded image, `none` when the file cannot be decoded), PNG encoding of an image
into a byte buffer (`DynamicImage::write_to`), and the remote compressor's
result-write operation (`Source::to_file`). -/
structure Env where
  fsExists : String → Bool
  decode : String → Option (Nat × Nat)
  encode : Img → Except String (List Nat)
  toFile : Source → String → Except String Unit

/-! ## The program -/

/-- `convert_and_tinify(file, new_size)` from `src/main.rs`: open the image
(panicking on decode failure), pad it onto a square transparent canvas of side
`max(width, height)` centered with floor offsets, resize to
`new_size × new_size` with Lanczos3, PNG-encode into a byte buffer, and submit
the buffer to the remote compressor. -/
def convert_and_tinify (env : Env) (file : String) (new_size : Nat) : RunResult Source :=
  match env.decode file with
  | none => .panicked ("Could not load image at \"" ++ file ++ "\"")
  | some (width, height) =>
    let logo : Img := .src width height
    let max_length : Nat := Nat.max width height
    let img : Img := .blank max_length max_length
    let img : Img := .overlaid img logo ((max_length - width) / 2) ((max_length - height) / 2)
    let resized : Img := .resized img new_size new_size .lanczos3
    match env.encode resized with
    | .error e => .err e
    | .ok bytes => .ok (.fromBuffer bytes)

/-- Output-path derivation of `tinify` in `src/main.rs`:
`output.map(…).unwrap_or(file).replace(".png", pattern + ".png").replace(".jpg", pattern + ".jpg")`. -/
def outputPath (file : String) (output? : Option String) (pat : String) : String :=
  srep (srep (output?.getD file) ".png" (pat ++ ".png")) ".jpg" (pat ++ ".jpg")

/-- The remote submission performed when a `Source` is created. -/
def submitEvent : Source → Event
  | .fromFile p => .remoteFromFile p
  | .fromBuffer b => .remoteFromBuffer b

/-- `tinify(file, output, pattern, convert_size)` from `src/main.rs`: derive the
output path (the source's `let output = …`, here `outputPath`, and
`let is_png = output.ends_with(".png")`), skip if the output contains the
doubled pattern, skip if the output already exists, otherwise convert-and-submit
(PNG output with a requested size) or submit the source path directly, and write
the compression result to the output path. -/
def tinify (env : Env) (file : String) (output? : Option String) (pat : String)
    (convert_size : Option Nat) : RunResult Unit × List Event :=
  if scontains (outputPath file output? pat) (pat ++ pat) then
    (.ok (), [.logAlreadyTinified file])
  else if env.fsExists (outputPath file output? pat) then
    (.ok (), [.logOutputExists file (outputPath file output? pat)])
  else
    match (match sendsWith (outputPath file output? pat) ".png", convert_size with
           | true, some new_size => convert_and_tinify env file new_size
           | _, _ => .ok (Source.fromFile file)) with
    | .panicked m => (.panicked m, [])
    | .err e => (.err e, [])
    | .ok source =>
      match env.toFile source (outputPath file output? pat) with
      | .error e => (.err e, [submitEvent source])
      | .ok _ => (.ok (), [submitEvent source, .wroteFile (outputPath file output? pat)])

/-- The CLI options of `main` (parsed by `clap`; the key is irrelevant here). -/
structure Opts where
  key : Option String
  name : Option String
  input_folder : String
  output_folder : Option String
  pat : String
  size : Nat
  tinify_only : Bool

/-- Size resolution in `main`:
`let size = if opts.tinify_only { None } else { Some(opts.size) }`. -/
def resolveSize (opts : Opts) : Option Nat :=
  if opts.tinify_only then none else some opts.size

/-- The files created by a list of events (`wroteFile` events, in order). -/
def writtenFiles (evs : List Event) : List String :=
  evs.filterMap (fun e => match e with | .wroteFile o => some o | _ => none)

/-- The environment after a list of files has been written to disk: those paths
now exist, nothing else changes. -/
def envAfterWrites (env : Env) (ws : List String) : Env :=
  { env with fsExists := fun p => ws.contains p || env.fsExists p }

/-- Result of a directory-mode batch: final result (the `?` in the loop aborts on
the first error, a panic aborts the process), all events in order, and the
resulting filesystem environment. -/
structure BatchOut where
  result : RunResult Unit
  events : List Event
  envF : Env

/-- The directory-mode loop of `main`: run `tinify` on each directory entry in
order, threading the filesystem state (each successful write makes that output
path exist for later jobs). -/
def runBatch (env : Env) (entries : List String) (output_folder : Option String)
    (pat : String) (convert_size : Option Nat) : BatchOut :=
  match entries with
  | [] => ⟨.ok (), [], env⟩
  | e :: rest =>
    match tinify env e output_folder pat convert_size with
    | (.ok _, evs) =>
      let out := runBatch (envAfterWrites env (writtenFiles evs)) rest output_folder pat convert_size
      ⟨out.result, evs ++ out.events, out.envF⟩
    | (.err er, evs) => ⟨.err er, evs, envAfterWrites env (writtenFiles evs)⟩
    | (.panicked m, evs) => ⟨.panicked m, evs, envAfterWrites env (writtenFiles evs)⟩

/-- The square canvas with the source image composited at floor-centered offsets,
as built by `convert_and_tinify` before resizing. -/
def paddedImg (width height : Nat) : Img :=
  Img.overlaid (Img.blank (Nat.max width height) (Nat.max width height))
    (Img.src width height)
    ((Nat.max width height - width) / 2) ((Nat.max width height - height) / 2)

/-- The image whose PNG encoding `convert_and_tinify` submits to the remote
compressor: the padded square resized to `new_size × new_size`. -/
def transformedImg (width height new_size : Nat) : Img :=
  Img.resized (paddedImg width height) new_size new_size .lanczos3

/-! ## Auxiliary machinery for the idempotence analysis

The two successive `replace` passes of `outputPath` (first `".png"`, then
`".jpg"`) are related to a single combined scan `scanD`, which makes the
behaviour of `outputPath` under iteration tractable. -/

/-- The needle `".png"` as a character list. -/
def pngL : List Char := ['.', 'p', 'n', 'g']

/-- The needle `".jpg"` as a character list. -/
def jpgL : List Char := ['.', 'j', 'p', 'g']

/-- The default pattern `"_tiny"` as a character list. -/
def tinyL : List Char := ['_', 't', 'i', 'n', 'y']

/-- Fuel-indexed combined scan: replace each (non-overlapping, left-to-right)
occurrence of `".png"` by `tp` and of `".jpg"` by `tj` in a single pass. -/
def scanFuel (tp tj : List Char) : Nat → List Char → List Char
  | _, [] => []
  | 0, s => s
  | fuel + 1, c :: rest =>
    if pngL.isPrefixOf (c :: rest) then tp ++ scanFuel tp tj fuel (rest.drop 3)
    else if jpgL.isPrefixOf (c :: rest) then tj ++ scanFuel tp tj fuel (rest.drop 3)
    else c :: scanFuel tp tj fuel rest

/-- Combined single-pass replacement of `".png"` by `tp` and `".jpg"` by `tj`. -/
def scanD (tp tj s : List Char) : List Char :=
  scanFuel tp tj s.length s

/-- `Shade s t` says that `t` is obtained from `s` by replacing some disjoint
segments of `s` with blocks that start with `'_'`, keeping all other characters.
Both replacement passes of `outputPath` (with a pattern starting in `'_'`) and
the combined scan produce shades of their input; a needle containing no `'_'`
can never start matching at a kept character of a shade unless it already
matched there in the input. -/
inductive Shade : List Char → List Char → Prop where
  | done : Shade [] []
  | keep (c : Char) {s t : List Char} : Shade s t → Shade (c :: s) (c :: t)
  | blockStep (m b : List Char) {s t : List Char} (hb : ∃ bs, b = '_' :: bs) :
      Shade s t → Shade (m ++ s) (b ++ t)

/-! ## Concrete environments used as witnesses -/

/-- An environment where no file exists; decoding yields a 2×1 image, encoding
yields the buffer `[1]`, and result writes succeed. -/
def envEmpty : Env :=
  { fsExists := fun _ => false
    decode := fun _ => some (2, 1)
    encode := fun _ => .ok [1]
    toFile := fun _ _ => .ok () }

/-- An environment where every file exists (otherwise as `envEmpty`). -/
def envAllExists : Env :=
  { envEmpty with fsExists := fun _ => true }

/-- An environment where no file exists and no file can be decoded. -/
def envNoDecode : Env :=
  { envEmpty with decode := fun _ => none }

/-! # Theorems -/

/-! ## Basic facts about `isPrefixOf` on character lists -/

theorem isPrefixOf_nil_left (l : List Char) : ([] : List Char).isPrefixOf l = true := by
  cases l <;> rfl

theorem isPrefixOf_cons₂ (a b : Char) (as bs : List Char) :
    (a :: as).isPrefixOf (b :: bs) = (a == b && as.isPrefixOf bs) := rfl

theorem isPrefixOf_head_ne {a b : Char} (as bs : List Char) (h : a ≠ b) :
    (a :: as).isPrefixOf (b :: bs) = false := by
  simp [isPrefixOf_cons₂, h]

theorem isPrefixOf_second_ne (a : Char) {a' : Char} (b : Char) {b' : Char}
    (as bs : List Char) (h : a' ≠ b') :
    (a :: a' :: as).isPrefixOf (b :: b' :: bs) = false := by
  simp [isPrefixOf_cons₂, h]

theorem isPrefixOf_append_self (l m : List Char) : l.isPrefixOf (l ++ m) = true := by
  induction l with
  | nil => exact isPrefixOf_nil_left m
  | cons a as ih => simp [isPrefixOf_cons₂, ih]

theorem isPrefixOf_append_left (l m n : List Char) : l.isPrefixOf ((l ++ m) ++ n) = true := by
  rw [List.append_assoc]
  exact isPrefixOf_append_self l (m ++ n)

theorem eq_append_drop_of_isPrefixOf {q s : List Char} (h : q.isPrefixOf s = true) :
    s = q ++ s.drop q.length := by
  induction q generalizing s with
  | nil => simp
  | cons a as ih =>
    cases s with
    | nil => simp [List.isPrefixOf] at h
    | cons b bs =>
      rw [isPrefixOf_cons₂] at h
      obtain ⟨h1, h2⟩ := Bool.and_eq_true_iff.mp h
      have hab : a = b := beq_iff_eq.mp h1
      subst hab
      simpa using ih h2

/-! ## Unfolding equations for `replaceL` -/

theorem replaceFuel_cons_pos (pat rep : List Char) (f : Nat) (c : Char) (rest : List Char)
    (h : pat.isPrefixOf (c :: rest) = true) :
    replaceFuel pat rep (f + 1) (c :: rest) =
      rep ++ replaceFuel pat rep f (rest.drop (pat.length - 1)) := by
  show (if pat.isPrefixOf (c :: rest) = true then
          rep ++ replaceFuel pat rep f (rest.drop (pat.length - 1))
        else c :: replaceFuel pat rep f rest) = _
  rw [if_pos h]

theorem replaceFuel_cons_neg (pat rep : List Char) (f : Nat) (c : Char) (rest : List Char)
    (h : pat.isPrefixOf (c :: rest) = false) :
    replaceFuel pat rep (f + 1) (c :: rest) = c :: replaceFuel pat rep f rest := by
  show (if pat.isPrefixOf (c :: rest) = true then
          rep ++ replaceFuel pat rep f (rest.drop (pat.length - 1))
        else c :: replaceFuel pat rep f rest) = _
  rw [if_neg]
  intro hh
  rw [h] at hh
  exact Bool.false_ne_true hh

theorem replaceFuel_congr (pat rep : List Char) :
    ∀ f₁ f₂ s, s.length ≤ f₁ → s.length ≤ f₂ →
      replaceFuel pat rep f₁ s = replaceFuel pat rep f₂ s := by
  intro f₁
  induction f₁ with
  | zero =>
    intro f₂ s h1 _
    have hs : s = [] := List.eq_nil_of_length_eq_zero (Nat.le_zero.mp h1)
    subst hs
    cases f₂ <;> rfl
  | succ f ih =>
    intro f₂ s h1 h2
    cases s with
    | nil => cases f₂ <;> rfl
    | cons c rest =>
      cases f₂ with
      | zero => simp at h2
      | succ g =>
        simp only [List.length_cons] at h1 h2
        cases hc : pat.isPrefixOf (c :: rest) with
        | true =>
          rw [replaceFuel_cons_pos pat rep f c rest hc,
            replaceFuel_cons_pos pat rep g c rest hc]
          have hd : (rest.drop (pat.length - 1)).length ≤ f := by
            simp only [List.length_drop]; omega
          have hd' : (rest.drop (pat.length - 1)).length ≤ g := by
            simp only [List.length_drop]; omega
          rw [ih _ _ hd hd']
        | false =>
          rw [replaceFuel_cons_neg pat rep f c rest hc,
            replaceFuel_cons_neg pat rep g c rest hc]
          rw [ih g rest (by omega) (by omega)]

theorem replaceL_nil (pat rep : List Char) : replaceL pat rep [] = [] := rfl

theorem replaceL_skip {pat : List Char} (rep : List Char) {c : Char} {X : List Char}
    (h : pat.isPrefixOf (c :: X) = false) :
    replaceL pat rep (c :: X) = c :: replaceL pat rep X := by
  show replaceFuel pat rep (X.length + 1) (c :: X) = _
  rw [replaceFuel_cons_neg pat rep X.length c X h]
  rfl

theorem replaceL_match (pat rep : List Char) (X : List Char) (hne : pat ≠ []) :
    replaceL pat rep (pat ++ X) = rep ++ replaceL pat rep X := by
  cases pat with
  | nil => exact absurd rfl hne
  | cons a as =>
    show replaceFuel (a :: as) rep ((a :: (as ++ X)).length) (a :: (as ++ X)) = _
    rw [show (a :: (as ++ X)).length = (as ++ X).length + 1 from rfl]
    rw [replaceFuel_cons_pos (a :: as) rep (as ++ X).length a (as ++ X)
      (isPrefixOf_append_self (a :: as) X)]
    congr 1
    have hdrop : (as ++ X).drop ((a :: as).length - 1) = X := by
      simp only [List.length_cons, Nat.add_sub_cancel]
      exact List.drop_left as X
    rw [hdrop]
    exact replaceFuel_congr (a :: as) rep (as ++ X).length X.length X
      (by simp only [List.length_append]; omega) le_rfl

/-! ## Basic facts about `containsL` -/

theorem containsL_nil (pat : List Char) : containsL [] pat = pat.isEmpty := rfl

theorem containsL_cons (c : Char) (rest pat : List Char) :
    containsL (c :: rest) pat = (pat.isPrefixOf (c :: rest) || containsL rest pat) := rfl

theorem containsL_of_isPrefixOf {s pat : List Char} (h : pat.isPrefixOf s = true) :
    containsL s pat = true := by
  cases s with
  | nil =>
    cases pat with
    | nil => rfl
    | cons a as => simp [List.isPrefixOf] at h
  | cons c rest => simp [containsL_cons, h]

theorem replaceL_id {pat : List Char} (rep : List Char) {s : List Char}
    (h : containsL s pat = false) :
    replaceL pat rep s = s := by
  induction s with
  | nil => rfl
  | cons c rest ih =>
    rw [containsL_cons] at h
    obtain ⟨h1, h2⟩ := Bool.or_eq_false_iff.mp h
    rw [replaceL_skip rep h1, ih h2]

/-! ## `String`-level bridges -/

theorem toList_srep (s pat rep : String) :
    (srep s pat rep).toList = replaceL pat.toList rep.toList s.toList := rfl

theorem string_mk_toList (s : String) : String.mk s.toList = s := by
  cases s
  rfl

theorem string_eq_of_toList_eq {a b : String} (h : a.toList = b.toList) : a = b := by
  rw [← string_mk_toList a, ← string_mk_toList b, h]

/-! ## Unfolding equations for `scanD` -/

theorem scanFuel_cons_png (tp tj : List Char) (f : Nat) (c : Char) (rest : List Char)
    (h : pngL.isPrefixOf (c :: rest) = true) :
    scanFuel tp tj (f + 1) (c :: rest) = tp ++ scanFuel tp tj f (rest.drop 3) := by
  show (if pngL.isPrefixOf (c :: rest) = true then tp ++ scanFuel tp tj f (rest.drop 3)
        else if jpgL.isPrefixOf (c :: rest) = true then tj ++ scanFuel tp tj f (rest.drop 3)
        else c :: scanFuel tp tj f rest) = _
  rw [if_pos h]

theorem scanFuel_cons_jpg (tp tj : List Char) (f : Nat) (c : Char) (rest : List Char)
    (hp : pngL.isPrefixOf (c :: rest) = false) (hj : jpgL.isPrefixOf (c :: rest) = true) :
    scanFuel tp tj (f + 1) (c :: rest) = tj ++ scanFuel tp tj f (rest.drop 3) := by
  show (if pngL.isPrefixOf (c :: rest) = true then tp ++ scanFuel tp tj f (rest.drop 3)
        else if jpgL.isPrefixOf (c :: rest) = true then tj ++ scanFuel tp tj f (rest.drop 3)
        else c :: scanFuel tp tj f rest) = _
  rw [if_neg (by rw [hp]; exact Bool.false_ne_true), if_pos hj]

theorem scanFuel_cons_neg (tp tj : List Char) (f : Nat) (c : Char) (rest : List Char)
    (hp : pngL.isPrefixOf (c :: rest) = false) (hj : jpgL.isPrefixOf (c :: rest) = false) :
    scanFuel tp tj (f + 1) (c :: rest) = c :: scanFuel tp tj f rest := by
  show (if pngL.isPrefixOf (c :: rest) = true then tp ++ scanFuel tp tj f (rest.drop 3)
        else if jpgL.isPrefixOf (c :: rest) = true then tj ++ scanFuel tp tj f (rest.drop 3)
        else c :: scanFuel tp tj f rest) = _
  rw [if_neg (by rw [hp]; exact Bool.false_ne_true),
    if_neg (by rw [hj]; exact Bool.false_ne_true)]

theorem scanFuel_congr (tp tj : List Char) :
    ∀ f₁ f₂ s, s.length ≤ f₁ → s.length ≤ f₂ →
      scanFuel tp tj f₁ s = scanFuel tp tj f₂ s := by
  intro f₁
  induction f₁ with
  | zero =>
    intro f₂ s h1 _
    have hs : s = [] := List.eq_nil_of_length_eq_zero (Nat.le_zero.mp h1)
    subst hs
    cases f₂ <;> rfl
  | succ f ih =>
    intro f₂ s h1 h2
    cases s with
    | nil => cases f₂ <;> rfl
    | cons c rest =>
      cases f₂ with
      | zero => simp at h2
      | succ g =>
        simp only [List.length_cons] at h1 h2
        cases hp : pngL.isPrefixOf (c :: rest) with
        | true =>
          rw [scanFuel_cons_png tp tj f c rest hp, scanFuel_cons_png tp tj g c rest hp]
          rw [ih g (rest.drop 3) (by simp only [List.length_drop]; omega)
            (by simp only [List.length_drop]; omega)]
        | false =>
          cases hj : jpgL.isPrefixOf (c :: rest) with
          | true =>
            rw [scanFuel_cons_jpg tp tj f c rest hp hj, scanFuel_cons_jpg tp tj g c rest hp hj]
            rw [ih g (rest.drop 3) (by simp only [List.length_drop]; omega)
              (by simp only [List.length_drop]; omega)]
          | false =>
            rw [scanFuel_cons_neg tp tj f c rest hp hj, scanFuel_cons_neg tp tj g c rest hp hj]
            rw [ih g rest (by omega) (by omega)]

theorem scanD_nil (tp tj : List Char) : scanD tp tj [] = [] := rfl

theorem scanD_png (tp tj X : List Char) : scanD tp tj (pngL ++ X) = tp ++ scanD tp tj X := by
  show scanFuel tp tj (pngL ++ X).length (pngL ++ X) = _
  have hl : (pngL ++ X).length = X.length + 3 + 1 := by
    simp only [List.length_append]
    simp only [pngL, List.length_cons, List.length_nil]
    omega
  rw [hl]
  rw [show pngL ++ X = '.' :: ('p' :: 'n' :: 'g' :: X) from rfl]
  rw [scanFuel_cons_png tp tj (X.length + 3) '.' ('p' :: 'n' :: 'g' :: X)
    (isPrefixOf_append_self pngL X)]
  rw [show ('p' :: 'n' :: 'g' :: X).drop 3 = X from rfl]
  rw [scanFuel_congr tp tj (X.length + 3) X.length X (by omega) le_rfl]
  rfl

theorem scanD_jpg (tp tj X : List Char) : scanD tp tj (jpgL ++ X) = tj ++ scanD tp tj X := by
  show scanFuel tp tj (jpgL ++ X).length (jpgL ++ X) = _
  have hl : (jpgL ++ X).length = X.length + 3 + 1 := by
    simp only [List.length_append]
    simp only [jpgL, List.length_cons, List.length_nil]
    omega
  rw [hl]
  rw [show jpgL ++ X = '.' :: ('j' :: 'p' :: 'g' :: X) from rfl]
  rw [scanFuel_cons_jpg tp tj (X.length + 3) '.' ('j' :: 'p' :: 'g' :: X)
    (isPrefixOf_second_ne '.' '.' ['n', 'g'] ('p' :: 'g' :: X) (by decide))
    (isPrefixOf_append_self jpgL X)]
  rw [show ('j' :: 'p' :: 'g' :: X).drop 3 = X from rfl]
  rw [scanFuel_congr tp tj (X.length + 3) X.length X (by omega) le_rfl]
  rfl

theorem scanD_skip (tp tj : List Char) {c : Char} {X : List Char}
    (hp : pngL.isPrefixOf (c :: X) = false) (hj : jpgL.isPrefixOf (c :: X) = false) :
    scanD tp tj (c :: X) = c :: scanD tp tj X := by
  show scanFuel tp tj (X.length + 1) (c :: X) = _
  rw [scanFuel_cons_neg tp tj X.length c X hp hj]
  rfl

/-! ## The shading relation and prefix preservation -/

theorem shade_isPrefixOf_false {s t : List Char} (hsh : Shade s t) :
    ∀ q : List Char, '_' ∉ q → q.isPrefixOf s = false → q.isPrefixOf t = false := by
  induction hsh with
  | done => exact fun q _ h => h
  | keep c hs ih =>
    intro q hq h
    cases q with
    | nil => rw [isPrefixOf_nil_left] at h; exact absurd h (by simp)
    | cons a q' =>
      rw [isPrefixOf_cons₂] at h ⊢
      cases hab : (a == c) with
      | false => simp [hab]
      | true =>
        simp only [hab, Bool.true_and] at h ⊢
        exact ih q' (fun hm => hq (List.mem_cons_of_mem a hm)) h
  | blockStep m b hb hs ih =>
    intro q hq h
    obtain ⟨bs, rfl⟩ := hb
    cases q with
    | nil => rw [isPrefixOf_nil_left] at h; exact absurd h (by simp)
    | cons a q' =>
      rw [show ('_' :: bs) ++ _ = '_' :: (bs ++ _) from rfl]
      apply isPrefixOf_head_ne
      intro hae
      exact hq (hae ▸ List.mem_cons_self a q')

theorem shade_replaceL (q rep : List Char) (hq : q ≠ []) (hrep : ∃ bs, rep = '_' :: bs) :
    ∀ n s, s.length ≤ n → Shade s (replaceL q rep s) := by
  intro n
  induction n with
  | zero =>
    intro s h
    have hs : s = [] := List.eq_nil_of_length_eq_zero (Nat.le_zero.mp h)
    subst hs
    rw [replaceL_nil]
    exact Shade.done
  | succ n ih =>
    intro s hlen
    cases s with
    | nil => rw [replaceL_nil]; exact Shade.done
    | cons c rest =>
      simp only [List.length_cons] at hlen
      cases hc : q.isPrefixOf (c :: rest) with
      | false =>
        rw [replaceL_skip rep hc]
        exact Shade.keep c (ih rest (by omega))
      | true =>
        have hdec := eq_append_drop_of_isPrefixOf hc
        rw [hdec, replaceL_match q rep _ hq]
        refine Shade.blockStep q rep hrep (ih _ ?_)
        simp only [List.length_drop, List.length_cons]
        have hqlen : 1 ≤ q.length := by
          cases q with
          | nil => exact absurd rfl hq
          | cons a as => simp
        omega

theorem shade_scanD (tp tj : List Char) (htp : ∃ bs, tp = '_' :: bs)
    (htj : ∃ bs, tj = '_' :: bs) :
    ∀ n s, s.length ≤ n → Shade s (scanD tp tj s) := by
  intro n
  induction n with
  | zero =>
    intro s h
    have hs : s = [] := List.eq_nil_of_length_eq_zero (Nat.le_zero.mp h)
    subst hs
    rw [scanD_nil]
    exact Shade.done
  | succ n ih =>
    intro s hlen
    cases s with
    | nil => rw [scanD_nil]; exact Shade.done
    | cons c rest =>
      simp only [List.length_cons] at hlen
      cases hp : pngL.isPrefixOf (c :: rest) with
      | true =>
        have hdec := eq_append_drop_of_isPrefixOf hp
        rw [show pngL.length = 4 from rfl] at hdec
        rw [hdec, scanD_png]
        refine Shade.blockStep pngL tp htp (ih _ ?_)
        simp only [List.length_drop, List.length_cons]
        omega
      | false =>
        cases hj : jpgL.isPrefixOf (c :: rest) with
        | true =>
          have hdec := eq_append_drop_of_isPrefixOf hj
          rw [show jpgL.length = 4 from rfl] at hdec
          rw [hdec, scanD_jpg]
          refine Shade.blockStep jpgL tj htj (ih _ ?_)
          simp only [List.length_drop, List.length_cons]
          omega
        | false =>
          rw [scanD_skip tp tj hp hj]
          exact Shade.keep c (ih rest (by omega))

/-! ## Walking a needle-free block -/

theorem replaceL_skip_head (pat0 : Char) (pat1 rep : List Char) (c : Char) (X : List Char)
    (h : pat0 ≠ c) :
    replaceL (pat0 :: pat1) rep (c :: X) = c :: replaceL (pat0 :: pat1) rep X :=
  replaceL_skip rep (isPrefixOf_head_ne pat1 X h)

theorem replaceL_skip_second (pat0 pat1 : Char) (pat2 rep : List Char) (c0 c1 : Char)
    (X : List Char) (h : pat1 ≠ c1) :
    replaceL (pat0 :: pat1 :: pat2) rep (c0 :: c1 :: X)
      = c0 :: replaceL (pat0 :: pat1 :: pat2) rep (c1 :: X) :=
  replaceL_skip rep (isPrefixOf_second_ne pat0 c0 pat2 X h)

theorem replaceL_jpg_walk_tinyPng (rep X : List Char) :
    replaceL jpgL rep (tinyL ++ (pngL ++ X)) = tinyL ++ (pngL ++ replaceL jpgL rep X) := by
  show replaceL ('.' :: ['j', 'p', 'g']) rep
      ('_' :: 't' :: 'i' :: 'n' :: 'y' :: '.' :: 'p' :: 'n' :: 'g' :: X)
    = '_' :: 't' :: 'i' :: 'n' :: 'y' :: '.' :: 'p' :: 'n' :: 'g' ::
        replaceL ('.' :: ['j', 'p', 'g']) rep X
  rw [replaceL_skip_head '.' ['j', 'p', 'g'] rep '_'
      ('t' :: 'i' :: 'n' :: 'y' :: '.' :: 'p' :: 'n' :: 'g' :: X) (by decide)]
  rw [replaceL_skip_head '.' ['j', 'p', 'g'] rep 't'
      ('i' :: 'n' :: 'y' :: '.' :: 'p' :: 'n' :: 'g' :: X) (by decide)]
  rw [replaceL_skip_head '.' ['j', 'p', 'g'] rep 'i'
      ('n' :: 'y' :: '.' :: 'p' :: 'n' :: 'g' :: X) (by decide)]
  rw [replaceL_skip_head '.' ['j', 'p', 'g'] rep 'n'
      ('y' :: '.' :: 'p' :: 'n' :: 'g' :: X) (by decide)]
  rw [replaceL_skip_head '.' ['j', 'p', 'g'] rep 'y'
      ('.' :: 'p' :: 'n' :: 'g' :: X) (by decide)]
  rw [replaceL_skip_second '.' 'j' ['p', 'g'] rep '.' 'p' ('n' :: 'g' :: X) (by decide)]
  rw [replaceL_skip_head '.' ['j', 'p', 'g'] rep 'p' ('n' :: 'g' :: X) (by decide)]
  rw [replaceL_skip_head '.' ['j', 'p', 'g'] rep 'n' ('g' :: X) (by decide)]
  rw [replaceL_skip_head '.' ['j', 'p', 'g'] rep 'g' X (by decide)]

theorem replaceL_png_walk_jpg (rep X : List Char) :
    replaceL pngL rep (jpgL ++ X) = jpgL ++ replaceL pngL rep X := by
  show replaceL ('.' :: ['p', 'n', 'g']) rep ('.' :: 'j' :: 'p' :: 'g' :: X)
    = '.' :: 'j' :: 'p' :: 'g' :: replaceL ('.' :: ['p', 'n', 'g']) rep X
  rw [replaceL_skip_second '.' 'p' ['n', 'g'] rep '.' 'j' ('p' :: 'g' :: X) (by decide)]
  rw [replaceL_skip_head '.' ['p', 'n', 'g'] rep 'j' ('p' :: 'g' :: X) (by decide)]
  rw [replaceL_skip_head '.' ['p', 'n', 'g'] rep 'p' ('g' :: X) (by decide)]
  rw [replaceL_skip_head '.' ['p', 'n', 'g'] rep 'g' X (by decide)]

theorem scanD_skip_head (tp tj : List Char) (c : Char) (X : List Char) (h : c ≠ '.') :
    scanD tp tj (c :: X) = c :: scanD tp tj X :=
  scanD_skip tp tj (isPrefixOf_head_ne ['p', 'n', 'g'] X (fun he => h he.symm))
    (isPrefixOf_head_ne ['j', 'p', 'g'] X (fun he => h he.symm))

theorem scanD_walk_tiny (tp tj X : List Char) :
    scanD tp tj (tinyL ++ X) = tinyL ++ scanD tp tj X := by
  show scanD tp tj ('_' :: 't' :: 'i' :: 'n' :: 'y' :: X) = _
  rw [scanD_skip_head tp tj '_' ('t' :: 'i' :: 'n' :: 'y' :: X) (by decide)]
  rw [scanD_skip_head tp tj 't' ('i' :: 'n' :: 'y' :: X) (by decide)]
  rw [scanD_skip_head tp tj 'i' ('n' :: 'y' :: X) (by decide)]
  rw [scanD_skip_head tp tj 'n' ('y' :: X) (by decide)]
  rw [scanD_skip_head tp tj 'y' X (by decide)]
  rfl

/-! ## The two replacement passes as a single combined scan -/

theorem replace_replace_eq_scanD :
    ∀ n s, s.length ≤ n →
      replaceL jpgL (tinyL ++ jpgL) (replaceL pngL (tinyL ++ pngL) s)
        = scanD (tinyL ++ pngL) (tinyL ++ jpgL) s := by
  intro n
  induction n with
  | zero =>
    intro s h
    have hs : s = [] := List.eq_nil_of_length_eq_zero (Nat.le_zero.mp h)
    subst hs
    rw [replaceL_nil, replaceL_nil, scanD_nil]
  | succ n ih =>
    intro s hlen
    cases s with
    | nil => rw [replaceL_nil, replaceL_nil, scanD_nil]
    | cons c rest =>
      simp only [List.length_cons] at hlen
      cases hp : pngL.isPrefixOf (c :: rest) with
      | true =>
        have hdec := eq_append_drop_of_isPrefixOf hp
        rw [show pngL.length = 4 from rfl] at hdec
        rw [hdec]
        rw [replaceL_match pngL (tinyL ++ pngL) ((c :: rest).drop 4) (by decide)]
        rw [List.append_assoc tinyL pngL _]
        rw [replaceL_jpg_walk_tinyPng (tinyL ++ jpgL) _]
        rw [ih ((c :: rest).drop 4)
          (by simp only [List.length_drop, List.length_cons]; omega)]
        rw [scanD_png, List.append_assoc]
      | false =>
        cases hj : jpgL.isPrefixOf (c :: rest) with
        | true =>
          have hdec := eq_append_drop_of_isPrefixOf hj
          rw [show jpgL.length = 4 from rfl] at hdec
          rw [hdec]
          rw [replaceL_png_walk_jpg (tinyL ++ pngL) ((c :: rest).drop 4)]
          rw [replaceL_match jpgL (tinyL ++ jpgL) _ (by decide)]
          rw [ih ((c :: rest).drop 4)
            (by simp only [List.length_drop, List.length_cons]; omega)]
          rw [scanD_jpg]
        | false =>
          rw [replaceL_skip (tinyL ++ pngL) hp]
          have hsh : Shade (c :: rest) (c :: replaceL pngL (tinyL ++ pngL) rest) :=
            Shade.keep c (shade_replaceL pngL (tinyL ++ pngL) (by decide)
              ⟨['t', 'i', 'n', 'y', '.', 'p', 'n', 'g'], rfl⟩ rest.length rest le_rfl)
          have hj' := shade_isPrefixOf_false hsh jpgL (by decide) hj
          rw [replaceL_skip (tinyL ++ jpgL) hj']
          rw [ih rest (by omega)]
          rw [scanD_skip _ _ hp hj]

theorem replace_replace_eq_scanD' (s : List Char) :
    replaceL jpgL (tinyL ++ jpgL) (replaceL pngL (tinyL ++ pngL) s)
      = scanD (tinyL ++ pngL) (tinyL ++ jpgL) s :=
  replace_replace_eq_scanD s.length s le_rfl

/-! ## Iterating the combined scan -/

theorem scanD_scanD :
    ∀ n s, s.length ≤ n →
      scanD (tinyL ++ pngL) (tinyL ++ jpgL) (scanD (tinyL ++ pngL) (tinyL ++ jpgL) s)
        = scanD (tinyL ++ (tinyL ++ pngL)) (tinyL ++ (tinyL ++ jpgL)) s := by
  intro n
  induction n with
  | zero =>
    intro s h
    have hs : s = [] := List.eq_nil_of_length_eq_zero (Nat.le_zero.mp h)
    subst hs
    rw [scanD_nil, scanD_nil, scanD_nil]
  | succ n ih =>
    intro s hlen
    cases s with
    | nil => rw [scanD_nil, scanD_nil, scanD_nil]
    | cons c rest =>
      simp only [List.length_cons] at hlen
      cases hp : pngL.isPrefixOf (c :: rest) with
      | true =>
        have hdec := eq_append_drop_of_isPrefixOf hp
        rw [show pngL.length = 4 from rfl] at hdec
        rw [hdec]
        rw [scanD_png (tinyL ++ pngL) (tinyL ++ jpgL) ((c :: rest).drop 4)]
        rw [List.append_assoc tinyL pngL _]
        rw [scanD_walk_tiny, scanD_png]
        rw [ih ((c :: rest).drop 4)
          (by simp only [List.length_drop, List.length_cons]; omega)]
        rw [scanD_png (tinyL ++ (tinyL ++ pngL)) (tinyL ++ (tinyL ++ jpgL)) _]
        rw [← List.append_assoc]
      | false =>
        cases hj : jpgL.isPrefixOf (c :: rest) with
        | true =>
          have hdec := eq_append_drop_of_isPrefixOf hj
          rw [show jpgL.length = 4 from rfl] at hdec
          rw [hdec]
          rw [scanD_jpg (tinyL ++ pngL) (tinyL ++ jpgL) ((c :: rest).drop 4)]
          rw [List.append_assoc tinyL jpgL _]
          rw [scanD_walk_tiny, scanD_jpg]
          rw [ih ((c :: rest).drop 4)
            (by simp only [List.length_drop, List.length_cons]; omega)]
          rw [scanD_jpg (tinyL ++ (tinyL ++ pngL)) (tinyL ++ (tinyL ++ jpgL)) _]
          rw [← List.append_assoc]
        | false =>
          rw [scanD_skip _ _ hp hj]
          have hsh : Shade (c :: rest) (c :: scanD (tinyL ++ pngL) (tinyL ++ jpgL) rest) :=
            Shade.keep c (shade_scanD (tinyL ++ pngL) (tinyL ++ jpgL)
              ⟨['t', 'i', 'n', 'y', '.', 'p', 'n', 'g'], rfl⟩
              ⟨['t', 'i', 'n', 'y', '.', 'j', 'p', 'g'], rfl⟩ rest.length rest le_rfl)
          have hp' := shade_isPrefixOf_false hsh pngL (by decide) hp
          have hj' := shade_isPrefixOf_false hsh jpgL (by decide) hj
          rw [scanD_skip _ _ hp' hj']
          rw [ih rest (by omega)]
          rw [scanD_skip _ _ hp hj]

theorem scanTT_contains :
    ∀ n s, s.length ≤ n → (containsL s pngL || containsL s jpgL) = true →
      containsL (scanD (tinyL ++ (tinyL ++ pngL)) (tinyL ++ (tinyL ++ jpgL)) s)
        (tinyL ++ tinyL) = true := by
  intro n
  induction n with
  | zero =>
    intro s hl h
    have hs : s = [] := List.eq_nil_of_length_eq_zero (Nat.le_zero.mp hl)
    subst hs
    exact absurd h (by decide)
  | succ n ih =>
    intro s hlen h
    cases s with
    | nil => exact absurd h (by decide)
    | cons c rest =>
      simp only [List.length_cons] at hlen
      cases hp : pngL.isPrefixOf (c :: rest) with
      | true =>
        have hdec := eq_append_drop_of_isPrefixOf hp
        rw [show pngL.length = 4 from rfl] at hdec
        rw [hdec]
        rw [scanD_png (tinyL ++ (tinyL ++ pngL)) (tinyL ++ (tinyL ++ jpgL)) _]
        apply containsL_of_isPrefixOf
        rw [show (tinyL ++ (tinyL ++ pngL)) ++
              scanD (tinyL ++ (tinyL ++ pngL)) (tinyL ++ (tinyL ++ jpgL)) ((c :: rest).drop 4)
            = (tinyL ++ tinyL) ++ (pngL ++
              scanD (tinyL ++ (tinyL ++ pngL)) (tinyL ++ (tinyL ++ jpgL)) ((c :: rest).drop 4))
          from by simp [List.append_assoc]]
        exact isPrefixOf_append_self (tinyL ++ tinyL) _
      | false =>
        cases hj : jpgL.isPrefixOf (c :: rest) with
        | true =>
          have hdec := eq_append_drop_of_isPrefixOf hj
          rw [show jpgL.length = 4 from rfl] at hdec
          rw [hdec]
          rw [scanD_jpg (tinyL ++ (tinyL ++ pngL)) (tinyL ++ (tinyL ++ jpgL)) _]
          apply containsL_of_isPrefixOf
          rw [show (tinyL ++ (tinyL ++ jpgL)) ++
                scanD (tinyL ++ (tinyL ++ pngL)) (tinyL ++ (tinyL ++ jpgL)) ((c :: rest).drop 4)
              = (tinyL ++ tinyL) ++ (jpgL ++
                scanD (tinyL ++ (tinyL ++ pngL)) (tinyL ++ (tinyL ++ jpgL)) ((c :: rest).drop 4))
            from by simp [List.append_assoc]]
          exact isPrefixOf_append_self (tinyL ++ tinyL) _
        | false =>
          rw [containsL_cons, containsL_cons, hp, hj, Bool.false_or, Bool.false_or] at h
          rw [scanD_skip _ _ hp hj, containsL_cons]
          rw [ih rest (by omega) h, Bool.or_true]

theorem scanD_id (tp tj : List Char) :
    ∀ n s, s.length ≤ n → containsL s pngL = false → containsL s jpgL = false →
      scanD tp tj s = s := by
  intro n
  induction n with
  | zero =>
    intro s hl _ _
    have hs : s = [] := List.eq_nil_of_length_eq_zero (Nat.le_zero.mp hl)
    subst hs
    exact scanD_nil tp tj
  | succ n ih =>
    intro s hlen h1 h2
    cases s with
    | nil => exact scanD_nil tp tj
    | cons c rest =>
      simp only [List.length_cons] at hlen
      rw [containsL_cons] at h1 h2
      obtain ⟨hp, h1'⟩ := Bool.or_eq_false_iff.mp h1
      obtain ⟨hj, h2'⟩ := Bool.or_eq_false_iff.mp h2
      rw [scanD_skip tp tj hp hj, ih rest (by omega) h1' h2']

theorem scanD_key (s : List Char) :
    containsL
      (scanD (tinyL ++ pngL) (tinyL ++ jpgL) (scanD (tinyL ++ pngL) (tinyL ++ jpgL) s))
      (tinyL ++ tinyL) = true
    ∨ scanD (tinyL ++ pngL) (tinyL ++ jpgL) s = s := by
  cases hc : (containsL s pngL || containsL s jpgL) with
  | true =>
    left
    rw [scanD_scanD s.length s le_rfl]
    exact scanTT_contains s.length s le_rfl hc
  | false =>
    right
    obtain ⟨h1, h2⟩ := Bool.or_eq_false_iff.mp hc
    exact scanD_id _ _ s.length s le_rfl h1 h2

/-! ## The key idempotence property of `outputPath` at the default pattern -/

theorem outputPath_none_tiny_toList (x : String) :
    (outputPath x none "_tiny").toList
      = replaceL jpgL (tinyL ++ jpgL) (replaceL pngL (tinyL ++ pngL) x.toList) := rfl

theorem outputPath_tiny_key (x : String) :
    scontains (outputPath (outputPath x none "_tiny") none "_tiny")
      ("_tiny" ++ "_tiny") = true
    ∨ outputPath x none "_tiny" = x := by
  rcases scanD_key x.toList with h | h
  · left
    show containsL (outputPath (outputPath x none "_tiny") none "_tiny").toList
      ("_tiny" ++ "_tiny").toList = true
    rw [outputPath_none_tiny_toList (outputPath x none "_tiny")]
    rw [outputPath_none_tiny_toList x]
    rw [replace_replace_eq_scanD' (replaceL jpgL (tinyL ++ jpgL)
      (replaceL pngL (tinyL ++ pngL) x.toList))]
    rw [replace_replace_eq_scanD' x.toList]
    exact h
  · right
    apply string_eq_of_toList_eq
    rw [outputPath_none_tiny_toList x, replace_replace_eq_scanD' x.toList]
    exact h

/-! ## Branch lemmas for `tinify` and `convert_and_tinify` -/

theorem tinify_double (env : Env) (file : String) (ov : Option String) (pat : String)
    (csize : Option Nat)
    (hd : scontains (outputPath file ov pat) (pat ++ pat) = true) :
    tinify env file ov pat csize = (.ok (), [.logAlreadyTinified file]) := by
  unfold tinify
  rw [if_pos hd]

theorem tinify_exists (env : Env) (file : String) (ov : Option String) (pat : String)
    (csize : Option Nat)
    (hd : scontains (outputPath file ov pat) (pat ++ pat) = false)
    (he : env.fsExists (outputPath file ov pat) = true) :
    tinify env file ov pat csize = (.ok (), [.logOutputExists file (outputPath file ov pat)]) := by
  unfold tinify
  rw [if_neg (by rw [hd]; exact Bool.false_ne_true), if_pos he]

theorem tinify_noskip (env : Env) (file : String) (ov : Option String) (pat : String)
    (csize : Option Nat)
    (hd : scontains (outputPath file ov pat) (pat ++ pat) = false)
    (he : env.fsExists (outputPath file ov pat) = false) :
    tinify env file ov pat csize =
      match (match sendsWith (outputPath file ov pat) ".png", csize with
             | true, some new_size => convert_and_tinify env file new_size
             | _, _ => .ok (Source.fromFile file)) with
      | .panicked m => (.panicked m, [])
      | .err e => (.err e, [])
      | .ok source =>
        match env.toFile source (outputPath file ov pat) with
        | .error e => (.err e, [submitEvent source])
        | .ok _ => (.ok (), [submitEvent source, .wroteFile (outputPath file ov pat)]) := by
  unfold tinify
  rw [if_neg (by rw [hd]; exact Bool.false_ne_true),
    if_neg (by rw [he]; exact Bool.false_ne_true)]

theorem tinify_source_none (env : Env) (file : String) (ov : Option String) (pat : String)
    (hd : scontains (outputPath file ov pat) (pat ++ pat) = false)
    (he : env.fsExists (outputPath file ov pat) = false) :
    tinify env file ov pat none =
      match env.toFile (Source.fromFile file) (outputPath file ov pat) with
      | .error e => (.err e, [.remoteFromFile file])
      | .ok _ => (.ok (), [.remoteFromFile file, .wroteFile (outputPath file ov pat)]) := by
  rw [tinify_noskip env file ov pat none hd he]
  cases hpng : sendsWith (outputPath file ov pat) ".png" with
  | true =>
    show (match env.toFile (Source.fromFile file) (outputPath file ov pat) with
          | .error e => ((.err e : RunResult Unit), [submitEvent (Source.fromFile file)])
          | .ok _ => (.ok (), [submitEvent (Source.fromFile file),
              .wroteFile (outputPath file ov pat)])) = _
    cases env.toFile (Source.fromFile file) (outputPath file ov pat) <;> rfl
  | false =>
    show (match env.toFile (Source.fromFile file) (outputPath file ov pat) with
          | .error e => ((.err e : RunResult Unit), [submitEvent (Source.fromFile file)])
          | .ok _ => (.ok (), [submitEvent (Source.fromFile file),
              .wroteFile (outputPath file ov pat)])) = _
    cases env.toFile (Source.fromFile file) (outputPath file ov pat) <;> rfl

theorem tinify_source_nonpng (env : Env) (file : String) (ov : Option String) (pat : String)
    (csize : Option Nat)
    (hd : scontains (outputPath file ov pat) (pat ++ pat) = false)
    (he : env.fsExists (outputPath file ov pat) = false)
    (hpng : sendsWith (outputPath file ov pat) ".png" = false) :
    tinify env file ov pat csize =
      match env.toFile (Source.fromFile file) (outputPath file ov pat) with
      | .error e => (.err e, [.remoteFromFile file])
      | .ok _ => (.ok (), [.remoteFromFile file, .wroteFile (outputPath file ov pat)]) := by
  rw [tinify_noskip env file ov pat csize hd he, hpng]
  cases csize <;> rfl

theorem tinify_source_convert (env : Env) (file : String) (ov : Option String) (pat : String)
    (new_size : Nat)
    (hd : scontains (outputPath file ov pat) (pat ++ pat) = false)
    (he : env.fsExists (outputPath file ov pat) = false)
    (hpng : sendsWith (outputPath file ov pat) ".png" = true) :
    tinify env file ov pat (some new_size) =
      match convert_and_tinify env file new_size with
      | .panicked m => (.panicked m, [])
      | .err e => (.err e, [])
      | .ok source =>
        match env.toFile source (outputPath file ov pat) with
        | .error e => (.err e, [submitEvent source])
        | .ok _ => (.ok (), [submitEvent source, .wroteFile (outputPath file ov pat)]) := by
  rw [tinify_noskip env file ov pat (some new_size) hd he, hpng]

theorem convert_and_tinify_none (env : Env) (file : String) (new_size : Nat)
    (hdec : env.decode file = none) :
    convert_and_tinify env file new_size
      = .panicked ("Could not load image at \"" ++ file ++ "\"") := by
  unfold convert_and_tinify
  rw [hdec]

theorem convert_and_tinify_some (env : Env) (file : String) (new_size w h : Nat)
    (hdec : env.decode file = some (w, h)) :
    convert_and_tinify env file new_size =
      match env.encode (transformedImg w h new_size) with
      | .error e => .err e
      | .ok bytes => .ok (.fromBuffer bytes) := by
  unfold convert_and_tinify
  rw [hdec]
  rfl

/-! ## Claim C1 -/

/-- C1, counterexample: the claim says the substitution touches only the trailing
extension position and leaves a source whose extension is not `.png`/`.jpg`
unchanged; but for source `photo.png.gif` (extension `.gif`) the code substitutes
at the inner, non-trailing `.png` occurrence. -/
theorem c1_counterexample :
    outputPath "photo.png.gif" none "_tiny" = "photo_tiny.png.gif"
    ∧ "photo_tiny.png.gif" ≠ "photo.png.gif" := by
  constructor
  · decide
  · decide

/-- C1, amended: the Output Path is derived by replacing every occurrence of the
substring `.png` by `pattern + ".png"` and then every occurrence of `.jpg` by
`pattern + ".jpg"`, anywhere in the path — not only at the trailing extension.
On the spec's examples this gives `photo.png ↦ photo_tiny.png`,
`photo.jpg ↦ photo_tiny.jpg` and `photo.gif ↦ photo.gif`; but a non-trailing
occurrence is substituted too (`photo.png.gif ↦ photo_tiny.png.gif`,
`my.pngs/photo.gif ↦ my_tiny.pngs/photo.gif`). -/
theorem c1_amended :
    outputPath "photo.png" none "_tiny" = "photo_tiny.png"
    ∧ outputPath "photo.jpg" none "_tiny" = "photo_tiny.jpg"
    ∧ outputPath "photo.gif" none "_tiny" = "photo.gif"
    ∧ (∀ file pat : String, outputPath file none pat
        = srep (srep file ".png" (pat ++ ".png")) ".jpg" (pat ++ ".jpg"))
    ∧ outputPath "photo.png.gif" none "_tiny" = "photo_tiny.png.gif"
    ∧ outputPath "my.pngs/photo.gif" none "_tiny" = "my_tiny.pngs/photo.gif" := by
  refine ⟨by decide, by decide, by decide, fun file pat => rfl, by decide, by decide⟩

/-! ## Claim C2 -/

/-- C2, counterexample: on the convert path with an undecodable source, the
pipeline does not return the load error as the Job's error result — it panics
(`expect`), aborting the process; the result is `panicked`, not `err`. -/
theorem c2_counterexample :
    (tinify envNoDecode "photo.png" none "_tiny" (some 200)).1
      = .panicked ("Could not load image at \"photo.png\"")
    ∧ ((tinify envNoDecode "photo.png" none "_tiny" (some 200)).1).isErr = false := by
  constructor
  · decide
  · decide

/-- C2, amended: for every Job on the convert path (PNG output with a requested
size, not skipped) whose source cannot be decoded, the pipeline aborts with a
load-error panic (`expect`, killing the process — not a returned `Err`), with no
remote call, no write and no retry. -/
theorem c2_amended (env : Env) (file : String) (ov : Option String) (pat : String)
    (new_size : Nat)
    (hpng : sendsWith (outputPath file ov pat) ".png" = true)
    (hd : scontains (outputPath file ov pat) (pat ++ pat) = false)
    (he : env.fsExists (outputPath file ov pat) = false)
    (hdec : env.decode file = none) :
    tinify env file ov pat (some new_size)
      = (.panicked ("Could not load image at \"" ++ file ++ "\""), []) := by
  rw [tinify_source_convert env file ov pat new_size hd he hpng]
  rw [convert_and_tinify_none env file new_size hdec]

/-- C2, witness for the amended theorem. -/
theorem c2_witness :
    tinify envNoDecode "photo.png" none "_tiny" (some 200)
      = (.panicked ("Could not load image at \"photo.png\""), []) :=
  c2_amended envNoDecode "photo.png" none "_tiny" 200 (by decide) (by decide)
    (by decide) rfl

/-! ## Claim C3 -/

/-- C3: for every Job whose derived Output Path already exists, `tinify` returns
success and its event trace has no remote-compressor call and no file write (in
particular the existing output is never overwritten). -/
theorem c3_exists_skip (env : Env) (file : String) (ov : Option String) (pat : String)
    (csize : Option Nat)
    (he : env.fsExists (outputPath file ov pat) = true) :
    (tinify env file ov pat csize).1 = .ok ()
    ∧ ((tinify env file ov pat csize).2.all
        (fun e => !e.isRemoteCall && !e.isWrite)) = true := by
  cases hd : scontains (outputPath file ov pat) (pat ++ pat) with
  | true => rw [tinify_double env file ov pat csize hd]; exact ⟨rfl, rfl⟩
  | false => rw [tinify_exists env file ov pat csize hd he]; exact ⟨rfl, rfl⟩

/-- C3, witness. -/
theorem c3_witness :
    (tinify envAllExists "photo.png" none "_tiny" (some 200)).1 = .ok ()
    ∧ ((tinify envAllExists "photo.png" none "_tiny" (some 200)).2.all
        (fun e => !e.isRemoteCall && !e.isWrite)) = true :=
  c3_exists_skip envAllExists "photo.png" none "_tiny" (some 200) rfl

/-! ## Claim C4 -/

/-- C4: for every Job whose derived Output Path contains the pattern repeated
adjacently, `tinify` returns success with only the double-pattern debug log —
no remote call and no write.  The conclusion holds for *every* environment,
including those where the output path exists, and the existence-branch log never
appears: the double-pattern check is applied before the output-existence
check. -/
theorem c4_double_pattern_skip (env : Env) (file : String) (ov : Option String)
    (pat : String) (csize : Option Nat)
    (hd : scontains (outputPath file ov pat) (pat ++ pat) = true) :
    tinify env file ov pat csize = (.ok (), [.logAlreadyTinified file]) :=
  tinify_double env file ov pat csize hd

/-- C4, witness (in an environment where the output also already exists, showing
the double-pattern branch wins). -/
theorem c4_witness :
    tinify envAllExists "x_tiny_tiny.png" none "_tiny" (some 200)
      = (.ok (), [.logAlreadyTinified "x_tiny_tiny.png"]) :=
  c4_double_pattern_skip envAllExists "x_tiny_tiny.png" none "_tiny" (some 200) (by decide)

/-! ## Claim C5 -/

/-- C5: for a Job that is not skipped, the transform path is taken exactly when
the Output Path ends with `.png` and a size was requested: in that case the
PNG-encoded buffer of the transformed image is what is submitted to the remote
compressor; in every other case the original source path is submitted
unchanged. -/
theorem c5_branch (env : Env) (file : String) (ov : Option String) (pat : String)
    (csize : Option Nat)
    (hd : scontains (outputPath file ov pat) (pat ++ pat) = false)
    (he : env.fsExists (outputPath file ov pat) = false) :
    (∀ new_size w h bytes, csize = some new_size →
        sendsWith (outputPath file ov pat) ".png" = true →
        env.decode file = some (w, h) →
        env.encode (transformedImg w h new_size) = .ok bytes →
        (tinify env file ov pat csize).2.head? = some (.remoteFromBuffer bytes))
    ∧ (sendsWith (outputPath file ov pat) ".png" = false ∨ csize = none →
        (tinify env file ov pat csize).2.head? = some (.remoteFromFile file)) := by
  constructor
  · intro new_size w h bytes hcs hpng hdec henc
    subst hcs
    rw [tinify_source_convert env file ov pat new_size hd he hpng]
    rw [convert_and_tinify_some env file new_size w h hdec, henc]
    show (match env.toFile (Source.fromBuffer bytes) (outputPath file ov pat) with
          | .error e => ((.err e : RunResult Unit), [submitEvent (Source.fromBuffer bytes)])
          | .ok _ => (.ok (), [submitEvent (Source.fromBuffer bytes),
              .wroteFile (outputPath file ov pat)])).2.head?
      = some (.remoteFromBuffer bytes)
    cases env.toFile (Source.fromBuffer bytes) (outputPath file ov pat) <;> rfl
  · intro hor
    rcases hor with hpng | hcs
    · rw [tinify_source_nonpng env file ov pat csize hd he hpng]
      cases env.toFile (Source.fromFile file) (outputPath file ov pat) <;> rfl
    · subst hcs
      rw [tinify_source_none env file ov pat hd he]
      cases env.toFile (Source.fromFile file) (outputPath file ov pat) <;> rfl

/-- C5, witness: both branches at concrete inputs. -/
theorem c5_witness :
    (tinify envEmpty "a.png" none "_tiny" (some 3)).2.head?
      = some (.remoteFromBuffer [1])
    ∧ (tinify envEmpty "a.gif" none "_tiny" (some 3)).2.head?
      = some (.remoteFromFile "a.gif") := by
  constructor
  · exact (c5_branch envEmpty "a.png" none "_tiny" (some 3) (by decide) rfl).1
      3 2 1 [1] rfl (by decide) rfl rfl
  · exact (c5_branch envEmpty "a.gif" none "_tiny" (some 3) (by decide) rfl).2
      (Or.inl (by decide))

/-! ## Claim C6 -/

/-- C6: for a decodable source of width `w` and height `h`, the canvas built by
`convert_and_tinify` is a blank square of side `max w h`, the source is
composited at floor offsets `((max w h - w)/2, (max w h - h)/2)`, and the padded
square is then resized to `new_size × new_size` before being encoded and
submitted. -/
theorem c6_transform_shape (env : Env) (file : String) (new_size w h : Nat)
    (hdec : env.decode file = some (w, h)) :
    (paddedImg w h).dims = (Nat.max w h, Nat.max w h)
    ∧ paddedImg w h
        = Img.overlaid (Img.blank (Nat.max w h) (Nat.max w h)) (Img.src w h)
            ((Nat.max w h - w) / 2) ((Nat.max w h - h) / 2)
    ∧ (transformedImg w h new_size).dims = (new_size, new_size)
    ∧ convert_and_tinify env file new_size =
        (match env.encode (Img.resized (paddedImg w h) new_size new_size .lanczos3) with
         | .error e => .err e
         | .ok bytes => .ok (.fromBuffer bytes)) :=
  ⟨rfl, rfl, rfl, convert_and_tinify_some env file new_size w h hdec⟩

/-- C6, witness. -/
theorem c6_witness :
    (paddedImg 2 1).dims = (2, 2)
    ∧ convert_and_tinify envEmpty "a.png" 5 =
        (match envEmpty.encode (Img.resized (paddedImg 2 1) 5 5 .lanczos3) with
         | .error e => .err e
         | .ok bytes => .ok (.fromBuffer bytes)) :=
  ⟨(c6_transform_shape envEmpty "a.png" 5 2 1 rfl).1,
    (c6_transform_shape envEmpty "a.png" 5 2 1 rfl).2.2.2⟩

/-! ## Claim C9 -/

/-- C9: with an explicit output override, the derived Output Path is the
override string with the pattern substitutions applied to it and does not
depend on the source path, so any two sources with the same override and
pattern derive identical Output Paths. -/
theorem c9_output_override (file₁ file₂ ov pat : String) :
    outputPath file₁ (some ov) pat
      = srep (srep ov ".png" (pat ++ ".png")) ".jpg" (pat ++ ".jpg")
    ∧ outputPath file₁ (some ov) pat = outputPath file₂ (some ov) pat :=
  ⟨rfl, rfl⟩

/-! ## Claim C8 -/

theorem tinify_none_events (env : Env) (file : String) (ov : Option String) (pat : String) :
    (tinify env file ov pat none).2 = [.logAlreadyTinified file]
    ∨ (tinify env file ov pat none).2 = [.logOutputExists file (outputPath file ov pat)]
    ∨ (tinify env file ov pat none).2 = [.remoteFromFile file]
    ∨ (tinify env file ov pat none).2
        = [.remoteFromFile file, .wroteFile (outputPath file ov pat)] := by
  cases hd : scontains (outputPath file ov pat) (pat ++ pat) with
  | true => exact Or.inl (by rw [tinify_double env file ov pat none hd])
  | false =>
    cases he : env.fsExists (outputPath file ov pat) with
    | true => exact Or.inr (Or.inl (by rw [tinify_exists env file ov pat none hd he]))
    | false =>
      rw [tinify_source_none env file ov pat hd he]
      cases env.toFile (Source.fromFile file) (outputPath file ov pat) with
      | error e => exact Or.inr (Or.inr (Or.inl rfl))
      | ok _ => exact Or.inr (Or.inr (Or.inr rfl))

/-- C8: with the tinify-only flag set, `main` resolves the size to `none`, so no
Job ever submits a converted buffer (the square-pad/resize transform is never
reached, whatever the configured size value), and every remote submission made
by a Job is the original source path unchanged. -/
theorem c8_tinify_only (o : Opts) (env : Env) (file : String) (ov : Option String)
    (pat : String) (ho : o.tinify_only = true) :
    resolveSize o = none
    ∧ ((tinify env file ov pat (resolveSize o)).2.all (fun e => !e.isRemoteBuffer)) = true
    ∧ (∀ ev ∈ (tinify env file ov pat (resolveSize o)).2, ev.isRemoteCall = true →
        ev = .remoteFromFile file) := by
  have hsz : resolveSize o = none := by
    unfold resolveSize
    rw [ho]
    rfl
  refine ⟨hsz, ?_, ?_⟩
  · rw [hsz]
    rcases tinify_none_events env file ov pat with h | h | h | h <;> rw [h] <;> rfl
  · rw [hsz]
    rcases tinify_none_events env file ov pat with h | h | h | h <;> rw [h] <;>
      intro ev hmem hcall
    · simp only [List.mem_singleton] at hmem
      subst hmem
      exact absurd hcall (by simp [Event.isRemoteCall])
    · simp only [List.mem_singleton] at hmem
      subst hmem
      exact absurd hcall (by simp [Event.isRemoteCall])
    · simp only [List.mem_singleton] at hmem
      subst hmem
      rfl
    · simp only [List.mem_cons, List.not_mem_nil, or_false] at hmem
      rcases hmem with hmem | hmem <;> subst hmem
      · rfl
      · exact absurd hcall (by simp [Event.isRemoteCall])

/-- C8, witness. -/
theorem c8_witness :
    resolveSize ⟨none, none, "tinify", none, "_tiny", 200, true⟩ = none
    ∧ ((tinify envEmpty "a.png" none "_tiny"
        (resolveSize ⟨none, none, "tinify", none, "_tiny", 200, true⟩)).2.all
          (fun e => !e.isRemoteBuffer)) = true
    ∧ (∀ ev ∈ (tinify envEmpty "a.png" none "_tiny"
        (resolveSize ⟨none, none, "tinify", none, "_tiny", 200, true⟩)).2,
          ev.isRemoteCall = true → ev = .remoteFromFile "a.png") :=
  c8_tinify_only ⟨none, none, "tinify", none, "_tiny", 200, true⟩ envEmpty "a.png"
    none "_tiny" rfl

/-! ## Claim C10 -/

/-- C10, counterexample: a source that exists, contains neither `.png` nor
`.jpg`, and has no override, but whose name contains the doubled pattern: the
pipeline is a no-op success as the claim says, but it is the *double-pattern*
guard that fires (its debug log), not the output-existence guard — the
existence check is never reached. -/
theorem c10_counterexample :
    scontains "a_tiny_tiny.gif" ".png" = false
    ∧ scontains "a_tiny_tiny.gif" ".jpg" = false
    ∧ envAllExists.fsExists "a_tiny_tiny.gif" = true
    ∧ outputPath "a_tiny_tiny.gif" none "_tiny" = "a_tiny_tiny.gif"
    ∧ tinify envAllExists "a_tiny_tiny.gif" none "_tiny" (some 200)
        = (.ok (), [.logAlreadyTinified "a_tiny_tiny.gif"])
    ∧ (Event.logAlreadyTinified "a_tiny_tiny.gif")
        ≠ (Event.logOutputExists "a_tiny_tiny.gif" "a_tiny_tiny.gif") := by
  refine ⟨by decide, by decide, by decide, by decide, ?_, by decide⟩
  exact tinify_double envAllExists "a_tiny_tiny.gif" none "_tiny" (some 200) (by decide)

/-- C10, amended: for every existing source whose path contains neither `.png`
nor `.jpg`, with no output override, *and which does not contain the doubled
pattern*, the derived Output Path equals the source path itself, the
output-existence guard fires on the source file, and the pipeline returns
success with no remote call and no write.  (When the source does contain the
doubled pattern, the earlier double-pattern guard skips first, with the same
observable no-op success.) -/
theorem c10_amended (env : Env) (file pat : String) (csize : Option Nat)
    (h1 : scontains file ".png" = false) (h2 : scontains file ".jpg" = false)
    (he : env.fsExists file = true)
    (h4 : scontains file (pat ++ pat) = false) :
    outputPath file none pat = file
    ∧ tinify env file none pat csize = (.ok (), [.logOutputExists file file]) := by
  have hout : outputPath file none pat = file := by
    apply string_eq_of_toList_eq
    show replaceL (".jpg".toList) ((pat ++ ".jpg").toList)
        (replaceL (".png".toList) ((pat ++ ".png").toList) file.toList) = file.toList
    rw [replaceL_id _ h1, replaceL_id _ h2]
  refine ⟨hout, ?_⟩
  have hd : scontains (outputPath file none pat) (pat ++ pat) = false := by
    rw [hout]; exact h4
  have he' : env.fsExists (outputPath file none pat) = true := by
    rw [hout]; exact he
  have := tinify_exists env file none pat csize hd he'
  rw [hout] at this
  exact this

/-- C10, witness for the amended theorem. -/
theorem c10_witness :
    outputPath "b.gif" none "_tiny" = "b.gif"
    ∧ tinify envAllExists "b.gif" none "_tiny" (some 200)
        = (.ok (), [.logOutputExists "b.gif" "b.gif"]) :=
  c10_amended envAllExists "b.gif" "_tiny" (some 200) (by decide) (by decide)
    (by decide) (by decide)

/-! ## Batch-level lemmas -/

theorem envAfterWrites_fsExists (env : Env) (ws : List String) (p : String) :
    (envAfterWrites env ws).fsExists p = (ws.contains p || env.fsExists p) := rfl

theorem writtenFiles_append (a b : List Event) :
    writtenFiles (a ++ b) = writtenFiles a ++ writtenFiles b :=
  List.filterMap_append a b _

theorem tinify_classify (env : Env) (file : String) (ov : Option String) (pat : String)
    (csize : Option Nat)
    (hok : (tinify env file ov pat csize).1 = .ok ()) :
    scontains (outputPath file ov pat) (pat ++ pat) = true
    ∨ env.fsExists (outputPath file ov pat) = true
    ∨ outputPath file ov pat ∈ writtenFiles (tinify env file ov pat csize).2 := by
  cases hd : scontains (outputPath file ov pat) (pat ++ pat) with
  | true => exact Or.inl rfl
  | false =>
    cases he : env.fsExists (outputPath file ov pat) with
    | true => exact Or.inr (Or.inl rfl)
    | false =>
      refine Or.inr (Or.inr ?_)
      rw [tinify_noskip env file ov pat csize hd he] at hok ⊢
      cases hsrc : (match sendsWith (outputPath file ov pat) ".png", csize with
                    | true, some new_size => convert_and_tinify env file new_size
                    | _, _ => .ok (Source.fromFile file)) with
      | panicked m => rw [hsrc] at hok; exact absurd hok (by simp)
      | err e => rw [hsrc] at hok; exact absurd hok (by simp)
      | ok source =>
        rw [hsrc] at hok
        replace hok : (match env.toFile source (outputPath file ov pat) with
            | Except.error e => ((RunResult.err e : RunResult Unit), [submitEvent source])
            | Except.ok _ => (RunResult.ok (), [submitEvent source,
                Event.wroteFile (outputPath file ov pat)])).1 = RunResult.ok () := hok
        show outputPath file ov pat ∈ writtenFiles
          (match env.toFile source (outputPath file ov pat) with
            | Except.error e => ((RunResult.err e : RunResult Unit), [submitEvent source])
            | Except.ok _ => (RunResult.ok (), [submitEvent source,
                Event.wroteFile (outputPath file ov pat)])).2
        cases htf : env.toFile source (outputPath file ov pat) with
        | error e => rw [htf] at hok; exact absurd hok (by simp)
        | ok u =>
          cases source with
          | fromFile p =>
            show outputPath file ov pat ∈ [outputPath file ov pat]
            exact List.mem_singleton.mpr rfl
          | fromBuffer b =>
            show outputPath file ov pat ∈ [outputPath file ov pat]
            exact List.mem_singleton.mpr rfl

theorem tinify_written_sub (env : Env) (file : String) (ov : Option String) (pat : String)
    (csize : Option Nat) :
    ∀ x ∈ writtenFiles (tinify env file ov pat csize).2, x = outputPath file ov pat := by
  intro x hx
  cases hd : scontains (outputPath file ov pat) (pat ++ pat) with
  | true =>
    rw [tinify_double env file ov pat csize hd] at hx
    exact absurd hx (by simp [writtenFiles])
  | false =>
    cases he : env.fsExists (outputPath file ov pat) with
    | true =>
      rw [tinify_exists env file ov pat csize hd he] at hx
      exact absurd hx (by simp [writtenFiles])
    | false =>
      rw [tinify_noskip env file ov pat csize hd he] at hx
      cases hsrc : (match sendsWith (outputPath file ov pat) ".png", csize with
                    | true, some new_size => convert_and_tinify env file new_size
                    | _, _ => .ok (Source.fromFile file)) with
      | panicked m => rw [hsrc] at hx; exact absurd hx (by simp [writtenFiles])
      | err e => rw [hsrc] at hx; exact absurd hx (by simp [writtenFiles])
      | ok source =>
        rw [hsrc] at hx
        replace hx : x ∈ writtenFiles
          (match env.toFile source (outputPath file ov pat) with
            | Except.error e => ((RunResult.err e : RunResult Unit), [submitEvent source])
            | Except.ok _ => (RunResult.ok (), [submitEvent source,
                Event.wroteFile (outputPath file ov pat)])).2 := hx
        cases htf : env.toFile source (outputPath file ov pat) with
        | error e =>
          rw [htf] at hx
          cases source <;> exact absurd hx (by simp [writtenFiles, submitEvent])
        | ok u =>
          rw [htf] at hx
          cases source with
          | fromFile p =>
            have hx' : x ∈ [outputPath file ov pat] := hx
            exact List.mem_singleton.mp hx'
          | fromBuffer b =>
            have hx' : x ∈ [outputPath file ov pat] := hx
            exact List.mem_singleton.mp hx'

theorem tinify_skip_ok (env : Env) (file : String) (ov : Option String) (pat : String)
    (csize : Option Nat)
    (h : scontains (outputPath file ov pat) (pat ++ pat) = true
         ∨ env.fsExists (outputPath file ov pat) = true) :
    (tinify env file ov pat csize).1 = .ok ()
    ∧ writtenFiles (tinify env file ov pat csize).2 = [] := by
  cases hd : scontains (outputPath file ov pat) (pat ++ pat) with
  | true => rw [tinify_double env file ov pat csize hd]; exact ⟨rfl, rfl⟩
  | false =>
    rcases h with h | h
    · rw [hd] at h; exact absurd h (by simp)
    · rw [tinify_exists env file ov pat csize hd h]; exact ⟨rfl, rfl⟩

theorem runBatch_cons_eq (env : Env) (e : String) (rest : List String)
    (ov : Option String) (pat : String) (csize : Option Nat) :
    runBatch env (e :: rest) ov pat csize =
      (match tinify env e ov pat csize with
       | (.ok _, evs) =>
         ⟨(runBatch (envAfterWrites env (writtenFiles evs)) rest ov pat csize).result,
          evs ++ (runBatch (envAfterWrites env (writtenFiles evs)) rest ov pat csize).events,
          (runBatch (envAfterWrites env (writtenFiles evs)) rest ov pat csize).envF⟩
       | (.err er, evs) => ⟨.err er, evs, envAfterWrites env (writtenFiles evs)⟩
       | (.panicked m, evs) => ⟨.panicked m, evs, envAfterWrites env (writtenFiles evs)⟩) := rfl

theorem runBatch_cons_ok (env : Env) (e : String) (rest : List String)
    (ov : Option String) (pat : String) (csize : Option Nat) (evs : List Event)
    (ht : tinify env e ov pat csize = (.ok (), evs)) :
    runBatch env (e :: rest) ov pat csize =
      ⟨(runBatch (envAfterWrites env (writtenFiles evs)) rest ov pat csize).result,
       evs ++ (runBatch (envAfterWrites env (writtenFiles evs)) rest ov pat csize).events,
       (runBatch (envAfterWrites env (writtenFiles evs)) rest ov pat csize).envF⟩ := by
  rw [runBatch_cons_eq, ht]

theorem runBatch_ok_head (env : Env) (e : String) (rest : List String)
    (ov : Option String) (pat : String) (csize : Option Nat)
    (hok : (runBatch env (e :: rest) ov pat csize).result = .ok ()) :
    (tinify env e ov pat csize).1 = .ok ()
    ∧ (runBatch (envAfterWrites env (writtenFiles (tinify env e ov pat csize).2))
        rest ov pat csize).result = .ok () := by
  cases ht : tinify env e ov pat csize with
  | mk r evs =>
    cases r with
    | ok u =>
      cases u
      rw [runBatch_cons_ok env e rest ov pat csize evs ht] at hok
      exact ⟨rfl, hok⟩
    | err er =>
      rw [runBatch_cons_eq, ht] at hok
      exact absurd hok (by simp)
    | panicked m =>
      rw [runBatch_cons_eq, ht] at hok
      exact absurd hok (by simp)

theorem runBatch_fs_mono (ov : Option String) (pat : String) (csize : Option Nat) :
    ∀ (entries : List String) (env : Env) (p : String), env.fsExists p = true →
      (runBatch env entries ov pat csize).envF.fsExists p = true := by
  intro entries
  induction entries with
  | nil => exact fun env p h => h
  | cons e rest ih =>
    intro env p h
    cases ht : tinify env e ov pat csize with
    | mk r evs =>
      have henv' : (envAfterWrites env (writtenFiles evs)).fsExists p = true := by
        rw [envAfterWrites_fsExists, h, Bool.or_true]
      cases r with
      | ok u =>
        cases u
        rw [runBatch_cons_ok env e rest ov pat csize evs ht]
        exact ih (envAfterWrites env (writtenFiles evs)) p henv'
      | err er => rw [runBatch_cons_eq, ht]; exact henv'
      | panicked m => rw [runBatch_cons_eq, ht]; exact henv'

theorem runBatch_written_exists (ov : Option String) (pat : String) (csize : Option Nat) :
    ∀ (entries : List String) (env : Env) (x : String),
      x ∈ writtenFiles (runBatch env entries ov pat csize).events →
      (runBatch env entries ov pat csize).envF.fsExists x = true := by
  intro entries
  induction entries with
  | nil =>
    intro env x hx
    exact absurd hx (by simp [runBatch, writtenFiles])
  | cons e rest ih =>
    intro env x hx
    cases ht : tinify env e ov pat csize with
    | mk r evs =>
      cases r with
      | ok u =>
        cases u
        rw [runBatch_cons_ok env e rest ov pat csize evs ht] at hx ⊢
        simp only [writtenFiles_append, List.mem_append] at hx
        rcases hx with hx | hx
        · apply runBatch_fs_mono
          have hc : (writtenFiles evs).contains x = true := List.elem_eq_true_of_mem hx
          rw [envAfterWrites_fsExists, hc, Bool.true_or]
        · exact ih (envAfterWrites env (writtenFiles evs)) x hx
      | err er =>
        rw [runBatch_cons_eq, ht] at hx
        replace hx : x ∈ writtenFiles evs := hx
        have hc : (writtenFiles evs).contains x = true := List.elem_eq_true_of_mem hx
        rw [runBatch_cons_eq, ht]
        show ((writtenFiles evs).contains x || env.fsExists x) = true
        rw [hc, Bool.true_or]
      | panicked m =>
        rw [runBatch_cons_eq, ht] at hx
        replace hx : x ∈ writtenFiles evs := hx
        have hc : (writtenFiles evs).contains x = true := List.elem_eq_true_of_mem hx
        rw [runBatch_cons_eq, ht]
        show ((writtenFiles evs).contains x || env.fsExists x) = true
        rw [hc, Bool.true_or]

theorem runBatch_written_shape (ov : Option String) (pat : String) (csize : Option Nat) :
    ∀ (entries : List String) (env : Env) (x : String),
      x ∈ writtenFiles (runBatch env entries ov pat csize).events →
      ∃ e, x = outputPath e ov pat := by
  intro entries
  induction entries with
  | nil =>
    intro env x hx
    exact absurd hx (by simp [runBatch, writtenFiles])
  | cons e rest ih =>
    intro env x hx
    cases ht : tinify env e ov pat csize with
    | mk r evs =>
      cases r with
      | ok u =>
        cases u
        rw [runBatch_cons_ok env e rest ov pat csize evs ht] at hx
        simp only [writtenFiles_append, List.mem_append] at hx
        rcases hx with hx | hx
        · refine ⟨e, ?_⟩
          have := tinify_written_sub env e ov pat csize x
          rw [ht] at this
          exact this hx
        · exact ih (envAfterWrites env (writtenFiles evs)) x hx
      | err er =>
        rw [runBatch_cons_eq, ht] at hx
        refine ⟨e, ?_⟩
        have := tinify_written_sub env e ov pat csize x
        rw [ht] at this
        exact this hx
      | panicked m =>
        rw [runBatch_cons_eq, ht] at hx
        refine ⟨e, ?_⟩
        have := tinify_written_sub env e ov pat csize x
        rw [ht] at this
        exact this hx

theorem runBatch_entry_skip (ov : Option String) (pat : String) (csize : Option Nat) :
    ∀ (entries : List String) (env : Env),
      (runBatch env entries ov pat csize).result = .ok () →
      ∀ e ∈ entries,
        scontains (outputPath e ov pat) (pat ++ pat) = true
        ∨ (runBatch env entries ov pat csize).envF.fsExists (outputPath e ov pat) = true := by
  intro entries
  induction entries with
  | nil => intro env _ e he; exact absurd he (by simp)
  | cons e0 rest ih =>
    intro env hok e hmem
    obtain ⟨hok0, hokrest⟩ := runBatch_ok_head env e0 rest ov pat csize hok
    cases ht : tinify env e0 ov pat csize with
    | mk r evs =>
      have hr : r = .ok () := by rw [ht] at hok0; exact hok0
      subst hr
      have henvF : (runBatch env (e0 :: rest) ov pat csize).envF
          = (runBatch (envAfterWrites env (writtenFiles evs)) rest ov pat csize).envF := by
        rw [runBatch_cons_ok env e0 rest ov pat csize evs ht]
      rcases List.mem_cons.mp hmem with he0 | hrest
      · subst he0
        rcases tinify_classify env e ov pat csize hok0 with h | h | h
        · exact Or.inl h
        · right
          rw [henvF]
          apply runBatch_fs_mono
          rw [envAfterWrites_fsExists, h, Bool.or_true]
        · right
          rw [henvF]
          apply runBatch_fs_mono
          rw [ht] at h
          have hc : (writtenFiles evs).contains (outputPath e ov pat) = true :=
            List.elem_eq_true_of_mem h
          rw [envAfterWrites_fsExists, hc, Bool.true_or]
      · have hokrest' : (runBatch (envAfterWrites env (writtenFiles evs))
            rest ov pat csize).result = .ok () := by
          rw [ht] at hokrest
          exact hokrest
        rcases ih (envAfterWrites env (writtenFiles evs)) hokrest' e hrest with h | h
        · exact Or.inl h
        · right
          rw [henvF]
          exact h

theorem runBatch_all_skip (ov : Option String) (pat : String) (csize : Option Nat) :
    ∀ (entries : List String) (env : Env),
      (∀ e ∈ entries, scontains (outputPath e ov pat) (pat ++ pat) = true
          ∨ env.fsExists (outputPath e ov pat) = true) →
      (runBatch env entries ov pat csize).result = .ok ()
      ∧ writtenFiles (runBatch env entries ov pat csize).events = [] := by
  intro entries
  induction entries with
  | nil => exact fun env _ => ⟨rfl, rfl⟩
  | cons e0 rest ih =>
    intro env h
    obtain ⟨hok0, hw0⟩ := tinify_skip_ok env e0 ov pat csize (h e0 (List.mem_cons_self e0 rest))
    cases ht : tinify env e0 ov pat csize with
    | mk r evs =>
      have hr : r = .ok () := by rw [ht] at hok0; exact hok0
      subst hr
      have hwevs : writtenFiles evs = [] := by rw [ht] at hw0; exact hw0
      rw [runBatch_cons_ok env e0 rest ov pat csize evs ht]
      have henv' : ∀ p, (envAfterWrites env (writtenFiles evs)).fsExists p
          = env.fsExists p := by
        intro p
        rw [envAfterWrites_fsExists, hwevs]
        rfl
      have hrest : ∀ e ∈ rest, scontains (outputPath e ov pat) (pat ++ pat) = true
          ∨ (envAfterWrites env (writtenFiles evs)).fsExists (outputPath e ov pat) = true := by
        intro e hm
        rcases h e (List.mem_cons_of_mem e0 hm) with h' | h'
        · exact Or.inl h'
        · right
          rw [henv' _]
          exact h'
      obtain ⟨hr1, hr2⟩ := ih (envAfterWrites env (writtenFiles evs)) hrest
      refine ⟨hr1, ?_⟩
      rw [writtenFiles_append, hr2, hwevs]
      rfl

/-! ## Claim C7 -/

/-- C7, counterexample: with pattern `"Q.jpg"` a single source `a.png` is
tinified to `aQQ.jpg.jpg.png` by the first run; the second run, whose directory
now also lists that output, derives a fresh output path for it that neither
contains the doubled pattern nor exists, so the second run performs a new
write — the batch is not idempotent for every configuration. -/
theorem c7_counterexample :
    (runBatch envEmpty ["a.png"] none "Q.jpg" none).result = .ok ()
    ∧ writtenFiles (runBatch envEmpty ["a.png"] none "Q.jpg" none).events
        = ["aQQ.jpg.jpg.png"]
    ∧ ("aQQ.jpg.jpg.png" ∈
        writtenFiles (runBatch envEmpty ["a.png"] none "Q.jpg" none).events)
    ∧ writtenFiles (runBatch (runBatch envEmpty ["a.png"] none "Q.jpg" none).envF
        ["aQQ.jpg.jpg.png"] none "Q.jpg" none).events ≠ [] := by
  refine ⟨by decide, by decide, by decide, by decide⟩

/-- C7, amended: for the default pattern `"_tiny"` the batch is idempotent:
if a first directory run completes successfully, then a second run over any
entries drawn from the first run's entries and its written outputs (the
post-run contents of the folder, under no external changes) succeeds and
performs zero new writes — every Job of the second run is skipped by the
double-pattern or output-existence guard.  (For patterns that themselves
contain `.png`/`.jpg`, such as `"Q.jpg"`, idempotence fails.) -/
theorem c7_amended (env : Env) (entries entries₂ : List String) (ov : Option String)
    (csize : Option Nat)
    (h1 : (runBatch env entries ov "_tiny" csize).result = .ok ())
    (h2 : ∀ e ∈ entries₂, e ∈ entries
        ∨ e ∈ writtenFiles (runBatch env entries ov "_tiny" csize).events) :
    (runBatch (runBatch env entries ov "_tiny" csize).envF entries₂ ov "_tiny" csize).result
        = .ok ()
    ∧ writtenFiles (runBatch (runBatch env entries ov "_tiny" csize).envF
        entries₂ ov "_tiny" csize).events = [] := by
  apply runBatch_all_skip
  intro e hmem
  rcases h2 e hmem with hold | hnew
  · exact runBatch_entry_skip ov "_tiny" csize entries env h1 e hold
  · have hex : (runBatch env entries ov "_tiny" csize).envF.fsExists e = true :=
      runBatch_written_exists ov "_tiny" csize entries env e hnew
    obtain ⟨e₀, he₀⟩ := runBatch_written_shape ov "_tiny" csize entries env e hnew
    cases ov with
    | some o =>
      right
      have hsame : outputPath e (some o) "_tiny" = e := by
        rw [he₀]
        rfl
      rw [hsame]
      exact hex
    | none =>
      rcases outputPath_tiny_key e₀ with h | h
      · left
        rw [he₀]
        exact h
      · right
        have hee : outputPath e none "_tiny" = e := by
          rw [he₀, h]
          exact h
        rw [hee]
        exact hex

/-- C7, witness for the amended theorem: a three-file folder (a PNG, a JPG and a
GIF) run twice with the default pattern. -/
theorem c7_witness :
    (runBatch (runBatch envEmpty ["p.png", "q.jpg", "r.gif"] none "_tiny" none).envF
      ["p.png", "q.jpg", "r.gif", "p_tiny.png", "q_tiny.jpg"] none "_tiny" none).result
        = .ok ()
    ∧ writtenFiles (runBatch
        (runBatch envEmpty ["p.png", "q.jpg", "r.gif"] none "_tiny" none).envF
        ["p.png", "q.jpg", "r.gif", "p_tiny.png", "q_tiny.jpg"] none "_tiny" none).events
      = [] :=
  c7_amended envEmpty ["p.png", "q.jpg", "r.gif"]
    ["p.png", "q.jpg", "r.gif", "p_tiny.png", "q_tiny.jpg"] none none
    (by decide) (by decide)

end TinifyPics
